import Mathlib

/-!
Shallow embedding of the model/loss core of the ssrf-project repository
(src/models.py): the orthogonal-Procrustes loss, the closest-rotation
regularizers (deformation and energy losses), the Fourier positional
encoding, the per-region loss composition of the three model variants, and
the epoch training loop.  Tensors of floats are idealized as real-valued
matrices; the singular value decomposition that torch.svd performs is
passed in as explicit factors constrained by the `IsSVD` predicate.
-/

open Matrix BigOperators

namespace SSRF

/-- Correction matrix from models.py: Z = eye(3) except Z[2,2], which is
multiplied by the sign of det(U·Vᵀ). -/
noncomputable def Zmat (U V : Matrix (Fin 3) (Fin 3) ℝ) : Matrix (Fin 3) (Fin 3) ℝ :=
  Matrix.diagonal ![1, 1, Real.sign (U * Vᵀ).det]

/-- Rotation R = V·Z·Uᵀ as constructed inside procrustes_loss. -/
noncomputable def procR (U V : Matrix (Fin 3) (Fin 3) ℝ) : Matrix (Fin 3) (Fin 3) ℝ :=
  V * Zmat U V * Uᵀ

/-- Rotation R = U·Z·Vᵀ as constructed inside deformation_loss and energy_loss. -/
noncomputable def closestR (U V : Matrix (Fin 3) (Fin 3) ℝ) : Matrix (Fin 3) (Fin 3) ℝ :=
  U * Zmat U V * Vᵀ

/-- Contract of torch.svd on a 3×3 input: K = U·diag(s)·Vᵀ with U, V
orthogonal and the singular values nonnegative, in descending order. -/
def IsSVD (K U : Matrix (Fin 3) (Fin 3) ℝ) (s : Fin 3 → ℝ)
    (V : Matrix (Fin 3) (Fin 3) ℝ) : Prop :=
  U * Uᵀ = 1 ∧ V * Vᵀ = 1 ∧ K = U * Matrix.diagonal s * Vᵀ ∧
    0 ≤ s 2 ∧ s 2 ≤ s 1 ∧ s 1 ≤ s 0

/-- Euclidean norm of a 3-vector (th.norm of a row). -/
noncomputable def vnorm (v : Fin 3 → ℝ) : ℝ := Real.sqrt (∑ j, v j ^ 2)

/-- Frobenius norm of a 3×3 matrix (th.linalg.matrix_norm). -/
noncomputable def frob (M : Matrix (Fin 3) (Fin 3) ℝ) : ℝ :=
  Real.sqrt (∑ a, ∑ b, M a b ^ 2)

/-- Shallow embedding of procrustes_loss from models.py.  The source
transposes its N×3 inputs to 3×N and works column-wise; this definition
follows it step by step.  U and V are the factors torch.svd returns for the
3×3 matrix K built inside (the singular values themselves are not used by
the code after the decomposition). -/
noncomputable def procrustes_loss {n : ℕ} (S1 S2 : Matrix (Fin n) (Fin 3) ℝ)
    (U V : Matrix (Fin 3) (Fin 3) ℝ) : ℝ :=
  let T1 := S1ᵀ
  let T2 := S2ᵀ
  let mu1 : Fin 3 → ℝ := fun a => (∑ i, T1 a i) / n
  let mu2 : Fin 3 → ℝ := fun a => (∑ i, T2 a i) / n
  let X1 : Matrix (Fin 3) (Fin n) ℝ := fun a i => T1 a i - mu1 a
  let X2 : Matrix (Fin 3) (Fin n) ℝ := fun a i => T2 a i - mu2 a
  let var1 : ℝ := ∑ a, ∑ i, X1 a i ^ 2
  let K := X1 * X2ᵀ
  let R := procR U V
  let scale := (R * K).trace / var1
  let t : Fin 3 → ℝ := fun a => mu2 a - scale * (∑ b, R a b * mu1 b)
  let S1hat : Matrix (Fin 3) (Fin n) ℝ := fun a i => scale * (∑ b, R a b * T1 b i) + t a
  (∑ i, vnorm (fun j => S1hatᵀ i j - T2ᵀ i j)) / n

/-- Centroid of the rows of an N×3 point set. -/
noncomputable def centroid {n : ℕ} (S : Matrix (Fin n) (Fin 3) ℝ) : Fin 3 → ℝ :=
  fun j => (∑ i, S i j) / n

/-- Rows centered by subtracting the centroid. -/
noncomputable def centered {n : ℕ} (S : Matrix (Fin n) (Fin 3) ℝ) :
    Matrix (Fin n) (Fin 3) ℝ :=
  fun i j => S i j - centroid S j

/-- Total squared norm of the centered rows (the scale normalizer var1). -/
noncomputable def sqVar {n : ℕ} (S : Matrix (Fin n) (Fin 3) ℝ) : ℝ :=
  ∑ i, ∑ j, centered S i j ^ 2

/-- Cross covariance K = centered(S1)ᵀ · centered(S2). -/
noncomputable def crossCov {n : ℕ} (S1 S2 : Matrix (Fin n) (Fin 3) ℝ) :
    Matrix (Fin 3) (Fin 3) ℝ :=
  (centered S1)ᵀ * centered S2

/-- Procrustes residual exactly as the specification words it, in the N×3
row convention: center both sets, var1 = Σ‖centered S1‖², K =
centered(S1)ᵀ·centered(S2), R = V·Z·Uᵀ, scale = trace(R·K)/var1,
t = mu2 − scale·R·mu1, and the result is the mean point-wise Euclidean
distance between scale·R·S1_i + t and S2_i. -/
noncomputable def procrustes_spec {n : ℕ} (S1 S2 : Matrix (Fin n) (Fin 3) ℝ)
    (U V : Matrix (Fin 3) (Fin 3) ℝ) : ℝ :=
  let R := procR U V
  let scale := (R * crossCov S1 S2).trace / sqVar S1
  let t : Fin 3 → ℝ := fun a => centroid S2 a - scale * R.mulVec (centroid S1) a
  (∑ i, vnorm (fun j => scale * R.mulVec (S1 i) j + t j - S2 i j)) / n

/-- Shallow embedding of deformation_loss from models.py: for each sample,
the rotation R_i = U_i·Z_i·V_iᵀ built from the batched SVD of the Jacobian,
and the mean Frobenius norm of jacobian − R. -/
noncomputable def deformation_loss {n : ℕ}
    (jac U V : Fin n → Matrix (Fin 3) (Fin 3) ℝ) : ℝ :=
  (∑ i, frob (jac i - closestR (U i) (V i))) / n

/-- Shallow embedding of energy_loss from models.py: the SVD factors U, V
are those of the per-sample product jacobian · actuation, and the returned
value is the mean Frobenius norm of jacobian − R·actuation. -/
noncomputable def energy_loss {n : ℕ}
    (jac act U V : Fin n → Matrix (Fin 3) (Fin 3) ℝ) : ℝ :=
  (∑ i, frob (jac i - closestR (U i) (V i) * act i)) / n

/-- Energy loss as the specification describes it: the mean Frobenius
distance ‖M_i − R_i‖ between M_i = jacobian·actuation and its nearest
proper rotation R_i. -/
noncomputable def energy_claim {n : ℕ}
    (jac act U V : Fin n → Matrix (Fin 3) (Fin 3) ℝ) : ℝ :=
  (∑ i, frob (jac i * act i - closestR (U i) (V i))) / n

/-- Correction matrix written independently from the specification text of
§4.2: Z = I except Z[2,2] = sign(det(U·Vᵀ)). -/
noncomputable def specZ (U V : Matrix (Fin 3) (Fin 3) ℝ) : Matrix (Fin 3) (Fin 3) ℝ :=
  fun a b => if a = b then (if a = 2 then Real.sign (U * Vᵀ).det else 1) else 0

/-- Nearest proper rotation as the specification words it: R = U·Z·Vᵀ. -/
noncomputable def spec_nearest_rotation (U V : Matrix (Fin 3) (Fin 3) ℝ) :
    Matrix (Fin 3) (Fin 3) ℝ :=
  U * specZ U V * Vᵀ

/-- One contiguous batch dataset[i·B : (i+1)·B], with Python slice
semantics (truncated at the end of the list). -/
def batchSlice {α : Type} (ds : List α) (B i : ℕ) : List α :=
  (ds.drop (i * B)).take B

/-- Number of batches per epoch: max(len(dataset) // batch_size, 1). -/
def numBatches (L B : ℕ) : ℕ := max (L / B) 1

/-- Accumulator state of the epoch loop after m batches: (total_loss,
total_samples), updated exactly as the loop body of BaseModel.train_epoch
does (total_loss += loss·len(batch); total_samples += len(batch)). -/
noncomputable def epochAccum {α : Type} (f : List α → ℝ) (ds : List α) (B : ℕ) :
    ℕ → ℝ × ℕ
  | 0 => (0, 0)
  | m + 1 =>
    let p := epochAccum f ds B m
    let batch := batchSlice ds B m
    (p.1 + f batch * batch.length, p.2 + batch.length)

/-- Shallow embedding of BaseModel.train_epoch: run the loop over
numBatches contiguous batches and return total_loss / total_samples.
f abstracts process_batch (forward + Jacobian + loss value); parameter
updates mutate state outside the returned value. -/
noncomputable def train_epoch {α : Type} (f : List α → ℝ) (ds : List α) (B : ℕ) : ℝ :=
  let p := epochAccum f ds B (numBatches ds.length B)
  p.1 / p.2

/-- Modelled from the spec: INRDataset.SKULL_MASK from datasets.py, which
is not among the sources; §3 fixes the full-head tag enumeration
{SKULL, JAW, SURFACE}.  The numeric value is immaterial to the claims. -/
def SKULL_MASK : ℕ := 0

/-- Modelled from the spec: INRDataset.JAW_MASK from datasets.py (not
among the sources). -/
def JAW_MASK : ℕ := 1

/-- Modelled from the spec: INRDataset.SURFACE_MASK from datasets.py (not
among the sources). -/
def SURFACE_MASK : ℕ := 2

/-- Modelled from the spec: SurfaceINRDataset.FLAME_MASK from datasets.py
(not among the sources); §3 fixes the surface tags {FLAME, BOUNDARY}. -/
def FLAME_MASK : ℕ := 0

/-- Modelled from the spec: SurfaceINRDataset.BOUNDARY_MASK from
datasets.py (not among the sources). -/
def BOUNDARY_MASK : ℕ := 1

/-- Modelled from the spec: SimulatorDataset.FIXED_MASK from datasets.py
(not among the sources); §3 fixes the simulator tags {FIXED, FREE}. -/
def FIXED_MASK : ℕ := 0

/-- Number of samples of the batch carrying a given region tag
(where_x.sum() in the code). -/
def countTag {n : ℕ} (mask : Fin n → ℕ) (tag : ℕ) : ℕ :=
  (Finset.univ.filter (fun i => mask i = tag)).card

/-- Indices of the samples carrying a region tag, in batch order
(boolean-mask indexing keeps the original order). -/
def regionIdx {n : ℕ} (mask : Fin n → ℕ) (tag : ℕ) : List (Fin n) :=
  (List.finRange n).filter (fun i => mask i = tag)

/-- Row submatrix selected by a list of indices
(prediction[where_x] for the region's rows). -/
def subRows {n : ℕ} (M : Matrix (Fin n) (Fin 3) ℝ) (l : List (Fin n)) :
    Matrix (Fin l.length) (Fin 3) ℝ :=
  fun i j => M (l.get i) j

/-- torch.nn.functional.l1_loss of a region: mean absolute difference over
all 3·k elements of the region's k selected rows. -/
noncomputable def l1Region {n : ℕ} (pred targ : Matrix (Fin n) (Fin 3) ℝ)
    (mask : Fin n → ℕ) (tag : ℕ) : ℝ :=
  (∑ i in Finset.univ.filter (fun i => mask i = tag), ∑ j, |pred i j - targ i j|) /
    (3 * countTag mask tag)

/-- One weighted per-region L1 term of a compute_loss variant: the zero
tensor when the region has no member in the batch, the region's l1_loss
otherwise, times the term's fixed weight. -/
noncomputable def l1Term {n : ℕ} (pred targ : Matrix (Fin n) (Fin 3) ℝ)
    (mask : Fin n → ℕ) (tag : ℕ) (w : ℝ) : ℝ :=
  (if 0 < countTag mask tag then l1Region pred targ mask tag else 0) * w

/-- Weighted JAW term of INRModel.compute_loss: the procrustes loss on the
JAW rows when the region has more than two members, a zero tensor
otherwise (with two or fewer points the loss can become nan). -/
noncomputable def jawTerm {n : ℕ} (pred targ : Matrix (Fin n) (Fin 3) ℝ)
    (mask : Fin n → ℕ) (Uj Vj : Matrix (Fin 3) (Fin 3) ℝ) (w : ℝ) : ℝ :=
  (if 2 < countTag mask JAW_MASK then
    procrustes_loss (subRows pred (regionIdx mask JAW_MASK))
      (subRows targ (regionIdx mask JAW_MASK)) Uj Vj
  else 0) * w

/-- Shallow embedding of INRModel.compute_loss (full-head variant):
surface + skull + jaw + deformation, each weighted.  Uj, Vj are the SVD
factors for the jaw procrustes call; jU, jV the batched SVD factors of the
Jacobian. -/
noncomputable def INR_compute_loss {n : ℕ} (pred targ : Matrix (Fin n) (Fin 3) ℝ)
    (mask : Fin n → ℕ) (jac jU jV : Fin n → Matrix (Fin 3) (Fin 3) ℝ)
    (Uj Vj : Matrix (Fin 3) (Fin 3) ℝ) (w_surface w_skull w_jaw w_def : ℝ) : ℝ :=
  l1Term pred targ mask SURFACE_MASK w_surface +
    l1Term pred targ mask SKULL_MASK w_skull +
    jawTerm pred targ mask Uj Vj w_jaw +
    deformation_loss jac jU jV * w_def

/-- Shallow embedding of SurfaceINRModel.compute_loss (surface variant):
flame + boundary + deformation, each weighted. -/
noncomputable def Surface_compute_loss {n : ℕ} (pred targ : Matrix (Fin n) (Fin 3) ℝ)
    (mask : Fin n → ℕ) (jac jU jV : Fin n → Matrix (Fin 3) (Fin 3) ℝ)
    (w_flame w_boundary w_def : ℝ) : ℝ :=
  l1Term pred targ mask FLAME_MASK w_flame +
    l1Term pred targ mask BOUNDARY_MASK w_boundary +
    deformation_loss jac jU jV * w_def

/-- Shallow embedding of SimulatorModel.compute_loss (simulator variant):
fixed + energy, each weighted.  eU, eV are the batched SVD factors of
jacobian·actuation. -/
noncomputable def Simulator_compute_loss {n : ℕ} (pred targ : Matrix (Fin n) (Fin 3) ℝ)
    (mask : Fin n → ℕ) (jac act eU eV : Fin n → Matrix (Fin 3) (Fin 3) ℝ)
    (w_fixed w_energy : ℝ) : ℝ :=
  l1Term pred targ mask FIXED_MASK w_fixed +
    energy_loss jac act eU eV * w_energy

/-- Shallow embedding of BaseModel.fourier_encode: features = π·2^k for
k < fourier_features, xff[i,j,k] = features_k · x[i,j], concatenation of
sin(xff) and cos(xff) along the band axis, then a row-major flatten of the
(input_size, 2·fourier_features) block of each sample, giving the
input_size·2·fourier_features feature vector the first linear layer
consumes. -/
noncomputable def fourier_encode {n d F : ℕ} (x : Matrix (Fin n) (Fin d) ℝ) :
    Matrix (Fin n) (Fin (d * 2 * F)) ℝ :=
  fun i p =>
    let j : Fin d := ⟨p.val / (2 * F), by
      have h2 : (p : ℕ) < d * (2 * F) :=
        lt_of_lt_of_le p.isLt (le_of_eq (Nat.mul_assoc d 2 F))
      have hF : 0 < 2 * F := by
        by_contra hc
        push_neg at hc
        rw [Nat.le_zero.mp hc, Nat.mul_zero] at h2
        exact absurd h2 (Nat.not_lt_zero _)
      exact (Nat.div_lt_iff_lt_mul hF).mpr h2⟩
    let k : ℕ := p.val % (2 * F)
    if k < F then Real.sin (Real.pi * 2 ^ k * x i j)
    else Real.cos (Real.pi * 2 ^ (k - F) * x i j)

/-- Frobenius inner product of two N×3 matrices. -/
noncomputable def minner {n : ℕ} (P Q : Matrix (Fin n) (Fin 3) ℝ) : ℝ :=
  ∑ p : Fin n × Fin 3, P p.1 p.2 * Q p.1 p.2

/-- Application of a similarity transform (scale c, rotation Rs,
translation ts) to every row of a point set. -/
noncomputable def applySim {n : ℕ} (c : ℝ) (Rs : Matrix (Fin 3) (Fin 3) ℝ)
    (ts : Fin 3 → ℝ) (S : Matrix (Fin n) (Fin 3) ℝ) : Matrix (Fin n) (Fin 3) ℝ :=
  fun i j => c * Rs.mulVec (S i) j + ts j

/-- Singleton batch holding one identity matrix (used by witnesses). -/
noncomputable def oneB : Fin 1 → Matrix (Fin 3) (Fin 3) ℝ := fun _ => 1

/-- Singleton batch holding one zero matrix (used by witnesses). -/
noncomputable def zeroB : Fin 1 → Matrix (Fin 3) (Fin 3) ℝ := fun _ => 0

section Theorems

/-- Orthogonality gives determinant ±1. -/
theorem det_orth_pm_one {U : Matrix (Fin 3) (Fin 3) ℝ} (hU : U * Uᵀ = 1) :
    U.det = 1 ∨ U.det = -1 := by
  have h := congrArg Matrix.det hU
  rw [Matrix.det_mul, Matrix.det_transpose, Matrix.det_one] at h
  exact mul_self_eq_one_iff.mp h

/-- Determinant of the correction matrix Z is the sign of det U · det V. -/
theorem Zmat_det (U V : Matrix (Fin 3) (Fin 3) ℝ) :
    (Zmat U V).det = Real.sign (U.det * V.det) := by
  rw [Zmat, Matrix.det_diagonal, Fin.prod_univ_three]
  rw [Matrix.det_mul, Matrix.det_transpose]
  norm_num

/-- Z reduces to the identity when U = V = I. -/
theorem Zmat_one : Zmat 1 1 = 1 := by
  rw [Zmat]
  have h : ((1 : Matrix (Fin 3) (Fin 3) ℝ) * (1 : Matrix (Fin 3) (Fin 3) ℝ)ᵀ).det = 1 := by
    simp
  rw [h, Real.sign_one]
  have h2 : (![1, 1, 1] : Fin 3 → ℝ) = fun _ => 1 := by
    funext i; fin_cases i <;> rfl
  rw [h2, Matrix.diagonal_one]

/-- Nearest rotation of the SVD factors U = V = I is the identity. -/
theorem closestR_one : closestR 1 1 = 1 := by
  rw [closestR, Zmat_one]; simp

/-- Entrywise form of Z from the specification agrees with the code's Z. -/
theorem specZ_eq_Zmat (U V : Matrix (Fin 3) (Fin 3) ℝ) : specZ U V = Zmat U V := by
  funext a b
  fin_cases a <;> fin_cases b <;> simp [specZ, Zmat, Matrix.diagonal_apply]

/-- Specification-side nearest rotation agrees with the code's. -/
theorem spec_nearest_rotation_eq (U V : Matrix (Fin 3) (Fin 3) ℝ) :
    spec_nearest_rotation U V = closestR U V := by
  rw [spec_nearest_rotation, closestR, specZ_eq_Zmat]

/-- Transposition bookkeeping: the source's 3×N computation equals the
specification's N×3 formulation. -/
theorem procrustes_loss_eq_spec {n : ℕ}
    (S1 S2 : Matrix (Fin n) (Fin 3) ℝ) (U V : Matrix (Fin 3) (Fin 3) ℝ) :
    procrustes_loss S1 S2 U V = procrustes_spec S1 S2 U V := by
  simp only [procrustes_loss, procrustes_spec, centroid, centered, sqVar, crossCov,
    Matrix.mulVec, dotProduct, Matrix.trace, Matrix.diag, Matrix.mul_apply,
    Matrix.transpose_apply]
  have hvar : (∑ a : Fin 3, ∑ i : Fin n, (S1 i a - (∑ k, S1 k a) / (n : ℝ)) ^ 2)
      = ∑ i : Fin n, ∑ a : Fin 3, (S1 i a - (∑ k, S1 k a) / (n : ℝ)) ^ 2 :=
    Finset.sum_comm
  rw [hvar]

/-- C1: procrustes_loss computes the similarity transform by exactly the
algorithm the specification states — center both sets, var1 = Σ‖centered
S1‖², K = centered(S1)ᵀ·centered(S2), R = V·Z·Uᵀ from the SVD factors,
scale = trace(R·K)/var1, t = mu2 − scale·R·mu1 — and returns the mean
point-wise Euclidean distance between scale·R·S1_i + t and S2_i. -/
theorem claim_C1_procrustes_matches_spec {n : ℕ}
    (S1 S2 : Matrix (Fin n) (Fin 3) ℝ) (U V : Matrix (Fin 3) (Fin 3) ℝ) :
    procrustes_loss S1 S2 U V = procrustes_spec S1 S2 U V :=
  procrustes_loss_eq_spec S1 S2 U V

/-- C2 counterexample: at the single-sample batch J = diag(2,1,1),
A = diag(3,1,1), with the exact SVD of M = J·A = diag(6,1,1) given by
U = V = I and s = (6,1,1), energy_loss returns ‖J − R·A‖_F = 1, while the
value the claim states, ‖M − R‖_F, is 5: the energy loss does not return
the mean Frobenius distance between M and its nearest rotation. -/
theorem claim_C2_counterexample :
    IsSVD (Matrix.diagonal ![(2:ℝ),1,1] * Matrix.diagonal ![(3:ℝ),1,1]) 1 ![6,1,1] 1 ∧
    energy_loss (fun _ : Fin 1 => Matrix.diagonal ![(2:ℝ),1,1])
      (fun _ => Matrix.diagonal ![(3:ℝ),1,1]) (fun _ => 1) (fun _ => 1) = 1 ∧
    energy_claim (fun _ : Fin 1 => Matrix.diagonal ![(2:ℝ),1,1])
      (fun _ => Matrix.diagonal ![(3:ℝ),1,1]) (fun _ => 1) (fun _ => 1) = 5 ∧
    (1:ℝ) ≠ 5 := by
  refine ⟨⟨by simp, by simp, ?_, by norm_num, by norm_num, by norm_num⟩, ?_, ?_, by norm_num⟩
  · rw [Matrix.diagonal_mul_diagonal]
    simp only [Matrix.transpose_one, one_mul, mul_one]
    have h : (fun i => (![(2:ℝ),1,1] : Fin 3 → ℝ) i * (![(3:ℝ),1,1] : Fin 3 → ℝ) i)
        = (![(6:ℝ),1,1] : Fin 3 → ℝ) := by
      funext i; fin_cases i <;> norm_num
    rw [h]
  · rw [energy_loss]
    simp only [closestR_one, Fin.sum_univ_one, one_mul]
    rw [frob]
    have h : (∑ a : Fin 3, ∑ b : Fin 3,
        ((Matrix.diagonal ![(2:ℝ),1,1] - Matrix.diagonal ![(3:ℝ),1,1]) a b) ^ 2) = 1 := by
      norm_num [Fin.sum_univ_three, Matrix.diagonal_apply]
      norm_num [Fin.ext_iff]
    rw [h]
    simp
  · rw [energy_claim]
    simp only [closestR_one, Fin.sum_univ_one]
    rw [frob]
    have h : (∑ a : Fin 3, ∑ b : Fin 3,
        ((Matrix.diagonal ![(2:ℝ),1,1] * Matrix.diagonal ![(3:ℝ),1,1] - 1) a b) ^ 2) = 25 := by
      norm_num [Fin.sum_univ_three, Matrix.diagonal_apply, Matrix.mul_apply, Matrix.one_apply]
      norm_num [Fin.ext_iff]
    rw [h]
    rw [show (25:ℝ) = 5 ^ 2 by norm_num, Real.sqrt_sq (by norm_num)]
    norm_num

/-- C2 amended: for every batch of Jacobians and actuation matrices, the
energy loss forms M_i = J_i·A_i, takes the nearest proper rotation R_i to
M_i via the sign-corrected SVD, and returns the mean over the batch of the
Frobenius distance ‖J_i − R_i·A_i‖_F. -/
theorem claim_C2_amended {n : ℕ} (jac act U V : Fin n → Matrix (Fin 3) (Fin 3) ℝ) :
    energy_loss jac act U V =
      (∑ i, frob (jac i - spec_nearest_rotation (U i) (V i) * act i)) / n := by
  simp only [spec_nearest_rotation_eq]
  rw [energy_loss]

/-- C4: with orthogonal SVD factors U and V, the rotation R constructed by
procrustes_loss (R = V·Z·Uᵀ) and the one constructed by deformation_loss
and energy_loss (R = U·Z·Vᵀ) both have determinant +1: the sign-corrected
Z guarantees a proper rotation even when det(U·Vᵀ) is negative. -/
theorem claim_C4_rotation_is_proper {U V : Matrix (Fin 3) (Fin 3) ℝ}
    (hU : U * Uᵀ = 1) (hV : V * Vᵀ = 1) :
    (procR U V).det = 1 ∧ (closestR U V).det = 1 := by
  have hz := Zmat_det U V
  have h1 : (procR U V).det = V.det * (Zmat U V).det * U.det := by
    rw [procR, Matrix.det_mul, Matrix.det_mul, Matrix.det_transpose]
  have h2 : (closestR U V).det = U.det * (Zmat U V).det * V.det := by
    rw [closestR, Matrix.det_mul, Matrix.det_mul, Matrix.det_transpose]
  rcases det_orth_pm_one hU with hu | hu <;> rcases det_orth_pm_one hV with hv | hv <;>
    rw [h1, h2, hz, hu, hv] <;> norm_num [Real.sign_of_neg]

/-- Witness for C4 at U = V = I. -/
theorem claim_C4_witness :
    ((1 : Matrix (Fin 3) (Fin 3) ℝ) * (1 : Matrix (Fin 3) (Fin 3) ℝ)ᵀ = 1) ∧
      (procR 1 1).det = 1 ∧ (closestR 1 1).det = 1 := by
  refine ⟨by simp, ?_, ?_⟩
  · exact (claim_C4_rotation_is_proper (by simp) (by simp)).1
  · exact (claim_C4_rotation_is_proper (by simp) (by simp)).2

/-- Closed form of the loop accumulator. -/
theorem epochAccum_eq {α : Type} (f : List α → ℝ) (ds : List α) (B m : ℕ) :
    epochAccum f ds B m =
      (∑ i in Finset.range m, f (batchSlice ds B i) * (batchSlice ds B i).length,
       ∑ i in Finset.range m, (batchSlice ds B i).length) := by
  induction m with
  | zero => simp [epochAccum]
  | succ m ih => simp [epochAccum, ih, Finset.sum_range_succ]

/-- C3: train_epoch processes exactly max(L // B, 1) contiguous batches
sliced as [i·B, (i+1)·B), accumulates loss·len(batch) and the sample
count of each batch, and returns the sample-weighted mean loss of the
epoch: total accumulated loss divided by total samples. -/
theorem claim_C3_train_epoch_weighted_mean {α : Type} (f : List α → ℝ)
    (ds : List α) (B : ℕ) :
    numBatches ds.length B = max (ds.length / B) 1 ∧
    train_epoch f ds B =
      (∑ i in Finset.range (numBatches ds.length B),
        f (batchSlice ds B i) * (batchSlice ds B i).length) /
      (∑ i in Finset.range (numBatches ds.length B),
        ((batchSlice ds B i).length : ℝ)) := by
  refine ⟨rfl, ?_⟩
  rw [train_epoch, epochAccum_eq]
  push_cast
  rfl

/-- Concatenation of the first m batches is exactly the m·B-prefix of the
dataset. -/
theorem join_batches {α : Type} (ds : List α) (B m : ℕ) :
    ((List.range m).map (batchSlice ds B)).flatten = ds.take (m * B) := by
  induction m with
  | zero => simp
  | succ m ih =>
    rw [List.range_succ, List.map_append, List.flatten_append, ih]
    simp [batchSlice]
    rw [Nat.succ_mul, List.take_add]

/-- C10: when the dataset length L is at least the batch size B, every
batch of the epoch has exactly B samples and together the batches cover
exactly the (L/B)·B-prefix of the dataset, so the L mod B trailing samples
are in no batch; when L < B there is a single, truncated batch equal to
the whole dataset. -/
theorem claim_C10_full_batches {α : Type} (ds : List α) (B : ℕ) (hB : 0 < B) :
    (B ≤ ds.length →
      (∀ i < ds.length / B, (batchSlice ds B i).length = B) ∧
      ((List.range (numBatches ds.length B)).map (batchSlice ds B)).flatten
        = ds.take ((ds.length / B) * B)) ∧
    (ds.length < B → numBatches ds.length B = 1 ∧ batchSlice ds B 0 = ds) := by
  constructor
  · intro hL
    constructor
    · intro i hi
      have h1 : (i + 1) * B ≤ (ds.length / B) * B := Nat.mul_le_mul_right B hi
      have h2 : (ds.length / B) * B ≤ ds.length := Nat.div_mul_le_self _ _
      have h3 : (i + 1) * B = i * B + B := by ring
      rw [batchSlice, List.length_take, List.length_drop]
      omega
    · have hm : numBatches ds.length B = ds.length / B := by
        rw [numBatches]
        have : 1 ≤ ds.length / B := (Nat.one_le_div_iff hB).mpr hL
        omega
      rw [hm, join_batches]
  · intro hL
    have h0 : ds.length / B = 0 := Nat.div_eq_of_lt hL
    constructor
    · rw [numBatches, h0]; simp
    · rw [batchSlice]
      simp
      omega

/-- Witness for C10 on the dataset [0,1,2,3,4] with batch size 2: two full
batches of 2 samples, index 4 in none of them. -/
theorem claim_C10_witness :
    0 < 2 ∧ 2 ≤ ([0,1,2,3,4] : List ℕ).length ∧
    ((∀ i < ([0,1,2,3,4] : List ℕ).length / 2,
        (batchSlice ([0,1,2,3,4] : List ℕ) 2 i).length = 2) ∧
      ((List.range (numBatches ([0,1,2,3,4] : List ℕ).length 2)).map
          (batchSlice ([0,1,2,3,4] : List ℕ) 2)).flatten
        = ([0,1,2,3,4] : List ℕ).take ((([0,1,2,3,4] : List ℕ).length / 2) * 2)) :=
  ⟨by norm_num, by norm_num,
    (claim_C10_full_batches [0,1,2,3,4] 2 (by norm_num)).1 (by norm_num)⟩

/-- Flattened feature index of band c of input dimension j is in range. -/
theorem flat_index_lt {d F : ℕ} (j : Fin d) (c : ℕ) (hc : c < 2 * F) :
    j.val * (2 * F) + c < d * 2 * F := by
  have h1 : j.val * (2 * F) + c < (j.val + 1) * (2 * F) := by
    rw [Nat.add_mul, Nat.one_mul]; omega
  have h2 : (j.val + 1) * (2 * F) ≤ d * (2 * F) := Nat.mul_le_mul_right _ j.isLt
  calc j.val * (2 * F) + c < (j.val + 1) * (2 * F) := h1
    _ ≤ d * (2 * F) := h2
    _ = d * 2 * F := (Nat.mul_assoc d 2 F).symm

/-- Flattened feature index of the cosine copy of band k is in range. -/
theorem flat_index_lt2 {d F : ℕ} (j : Fin d) (k : Fin F) :
    j.val * (2 * F) + F + k.val < d * 2 * F := by
  have h := @flat_index_lt d F j (F + k.val) (by have := k.isLt; omega)
  omega

/-- C8: with Fourier encoding enabled the first layer consumes a feature
vector of width input_size·2·fourier_features (the output type of
fourier_encode), in which input scalar x[i,j] contributes
sin(2^k·π·x[i,j]) at flattened position j·2F + k and cos(2^k·π·x[i,j]) at
flattened position j·2F + F + k, for every band k < fourier_features,
concatenated across bands and input dimensions per sample. -/
theorem claim_C8_fourier_features {n d F : ℕ} (x : Matrix (Fin n) (Fin d) ℝ)
    (i : Fin n) (j : Fin d) (k : Fin F) :
    fourier_encode x i ⟨j.val * (2 * F) + k.val,
        flat_index_lt j k.val (by have := k.isLt; omega)⟩
      = Real.sin (2 ^ k.val * Real.pi * x i j) ∧
    fourier_encode x i ⟨j.val * (2 * F) + F + k.val, flat_index_lt2 j k⟩
      = Real.cos (2 ^ k.val * Real.pi * x i j) := by
  have hF : 0 < 2 * F := by have := k.isLt; omega
  constructor
  · have hdiv : (j.val * (2 * F) + k.val) / (2 * F) = j.val := by
      rw [Nat.add_comm, Nat.mul_comm j.val (2 * F), Nat.add_mul_div_left _ _ hF,
        Nat.div_eq_of_lt (by have := k.isLt; omega), Nat.zero_add]
    have hmod : (j.val * (2 * F) + k.val) % (2 * F) = k.val := by
      rw [Nat.add_comm, Nat.mul_comm j.val (2 * F), Nat.add_mul_mod_self_left,
        Nat.mod_eq_of_lt (by have := k.isLt; omega)]
    simp only [fourier_encode, hdiv, hmod, Fin.eta, if_pos k.isLt]
    ring_nf
  · have he : j.val * (2 * F) + F + k.val = (F + k.val) + (2 * F) * j.val := by ring
    have hdiv : (j.val * (2 * F) + F + k.val) / (2 * F) = j.val := by
      rw [he, Nat.add_mul_div_left _ _ hF,
        Nat.div_eq_of_lt (by have := k.isLt; omega), Nat.zero_add]
    have hmod : (j.val * (2 * F) + F + k.val) % (2 * F) = F + k.val := by
      rw [he, Nat.add_mul_mod_self_left, Nat.mod_eq_of_lt (by have := k.isLt; omega)]
    have hcond : ¬ (F + k.val < F) := by omega
    simp only [fourier_encode, hdiv, hmod, Fin.eta, if_neg hcond,
      Nat.add_sub_cancel_left]
    ring_nf

/-- C5: a per-region L1 term of any compute_loss variant is the exact zero
value when its region has no members in the batch, and the JAW procrustes
term of the full-head variant is the exact zero value whenever the JAW
region has two or fewer members; no case is excluded, so the composed loss
is always defined. -/
theorem claim_C5_degenerate_regions {n : ℕ} (pred targ : Matrix (Fin n) (Fin 3) ℝ)
    (mask : Fin n → ℕ) (tag : ℕ) (w : ℝ) (Uj Vj : Matrix (Fin 3) (Fin 3) ℝ) :
    (countTag mask tag = 0 → l1Term pred targ mask tag w = 0) ∧
    (countTag mask JAW_MASK ≤ 2 → jawTerm pred targ mask Uj Vj w = 0) := by
  constructor
  · intro h
    rw [l1Term, if_neg (by omega), zero_mul]
  · intro h
    rw [jawTerm, if_neg (by omega), zero_mul]

/-- Witness for C5: a singleton batch whose only sample carries a tag
outside every enumeration; both the SURFACE term and the JAW term are
zero. -/
theorem claim_C5_witness :
    (countTag (fun _ : Fin 1 => 99) SURFACE_MASK = 0 ∧
      l1Term (0 : Matrix (Fin 1) (Fin 3) ℝ) 0 (fun _ => 99) SURFACE_MASK 5 = 0) ∧
    (countTag (fun _ : Fin 1 => 99) JAW_MASK ≤ 2 ∧
      jawTerm (0 : Matrix (Fin 1) (Fin 3) ℝ) 0 (fun _ => 99) 1 1 5 = 0) :=
  ⟨⟨by decide, (claim_C5_degenerate_regions 0 0 (fun _ => 99) SURFACE_MASK 5 1 1).1
      (by decide)⟩,
   ⟨by decide, (claim_C5_degenerate_regions 0 0 (fun _ => 99) SURFACE_MASK 5 1 1).2
      (by decide)⟩⟩

/-- Members of a region's index list carry the region's tag. -/
theorem regionIdx_mask {n : ℕ} (mask : Fin n → ℕ) (tag : ℕ) {i : Fin n}
    (h : i ∈ regionIdx mask tag) : mask i = tag := by
  rw [regionIdx, List.mem_filter] at h
  exact of_decide_eq_true h.2

/-- An L1 term only reads the rows carrying its tag. -/
theorem l1Term_congr {n : ℕ} {pred targ pred2 targ2 : Matrix (Fin n) (Fin 3) ℝ}
    {mask : Fin n → ℕ} {tag : ℕ} (w : ℝ)
    (hp : ∀ i, mask i = tag → ∀ j, pred2 i j = pred i j)
    (ht : ∀ i, mask i = tag → ∀ j, targ2 i j = targ i j) :
    l1Term pred2 targ2 mask tag w = l1Term pred targ mask tag w := by
  have hr : l1Region pred2 targ2 mask tag = l1Region pred targ mask tag := by
    rw [l1Region, l1Region]
    congr 1
    apply Finset.sum_congr rfl
    intro i hi
    rw [Finset.mem_filter] at hi
    exact Finset.sum_congr rfl fun j _ => by rw [hp i hi.2 j, ht i hi.2 j]
  rw [l1Term, l1Term, hr]

/-- Row selection only reads the selected rows. -/
theorem subRows_congr {n : ℕ} {M2 M : Matrix (Fin n) (Fin 3) ℝ} {l : List (Fin n)}
    (h : ∀ i ∈ l, ∀ j, M2 i j = M i j) : subRows M2 l = subRows M l := by
  funext i j
  exact h (l.get i) (l.get_mem i.val i.isLt) j

/-- The JAW term only reads the rows tagged JAW. -/
theorem jawTerm_congr {n : ℕ} {pred targ pred2 targ2 : Matrix (Fin n) (Fin 3) ℝ}
    {mask : Fin n → ℕ} (Uj Vj : Matrix (Fin 3) (Fin 3) ℝ) (w : ℝ)
    (hp : ∀ i, mask i = JAW_MASK → ∀ j, pred2 i j = pred i j)
    (ht : ∀ i, mask i = JAW_MASK → ∀ j, targ2 i j = targ i j) :
    jawTerm pred2 targ2 mask Uj Vj w = jawTerm pred targ mask Uj Vj w := by
  have h1 : subRows pred2 (regionIdx mask JAW_MASK) = subRows pred (regionIdx mask JAW_MASK) :=
    subRows_congr fun i hi j => hp i (regionIdx_mask _ _ hi) j
  have h2 : subRows targ2 (regionIdx mask JAW_MASK) = subRows targ (regionIdx mask JAW_MASK) :=
    subRows_congr fun i hi j => ht i (regionIdx_mask _ _ hi) j
  rw [jawTerm, jawTerm, h1, h2]

/-- C9: in each compute_loss variant, samples whose mask matches none of
the mode's region tags leave every region term unchanged (so they feed
no supervision term), yet the Jacobians of all samples in the batch enter
the loss through the deformation or energy regularizer: the loss
difference under a change of the Jacobian batch equals the weighted
regularizer difference, and the regularizer by definition averages over
the full batch with no mask filtering. -/
theorem claim_C9_untagged_only_regularizer {n : ℕ}
    (pred targ pred2 targ2 : Matrix (Fin n) (Fin 3) ℝ) (mask : Fin n → ℕ) (i0 : Fin n)
    (jac jac2 jU jV jU2 jV2 act eU eV eU2 eV2 : Fin n → Matrix (Fin 3) (Fin 3) ℝ)
    (Uj Vj : Matrix (Fin 3) (Fin 3) ℝ) (wa wb wc wd : ℝ)
    (hp : ∀ i, i ≠ i0 → ∀ j, pred2 i j = pred i j)
    (ht : ∀ i, i ≠ i0 → ∀ j, targ2 i j = targ i j) :
    (mask i0 ≠ SURFACE_MASK → mask i0 ≠ SKULL_MASK → mask i0 ≠ JAW_MASK →
      INR_compute_loss pred2 targ2 mask jac jU jV Uj Vj wa wb wc wd
        = INR_compute_loss pred targ mask jac jU jV Uj Vj wa wb wc wd) ∧
    (mask i0 ≠ FLAME_MASK → mask i0 ≠ BOUNDARY_MASK →
      Surface_compute_loss pred2 targ2 mask jac jU jV wa wb wd
        = Surface_compute_loss pred targ mask jac jU jV wa wb wd) ∧
    (mask i0 ≠ FIXED_MASK →
      Simulator_compute_loss pred2 targ2 mask jac act eU eV wa wd
        = Simulator_compute_loss pred targ mask jac act eU eV wa wd) ∧
    (INR_compute_loss pred targ mask jac2 jU2 jV2 Uj Vj wa wb wc wd
        - INR_compute_loss pred targ mask jac jU jV Uj Vj wa wb wc wd
      = (deformation_loss jac2 jU2 jV2 - deformation_loss jac jU jV) * wd) ∧
    (Surface_compute_loss pred targ mask jac2 jU2 jV2 wa wb wd
        - Surface_compute_loss pred targ mask jac jU jV wa wb wd
      = (deformation_loss jac2 jU2 jV2 - deformation_loss jac jU jV) * wd) ∧
    (Simulator_compute_loss pred targ mask jac2 act eU2 eV2 wa wd
        - Simulator_compute_loss pred targ mask jac act eU eV wa wd
      = (energy_loss jac2 act eU2 eV2 - energy_loss jac act eU eV) * wd) := by
  have mk : ∀ tag, mask i0 ≠ tag → ∀ i, mask i = tag → ∀ j, pred2 i j = pred i j :=
    fun tag htag i hi j => hp i (fun he => htag (he ▸ hi)) j
  have mkt : ∀ tag, mask i0 ≠ tag → ∀ i, mask i = tag → ∀ j, targ2 i j = targ i j :=
    fun tag htag i hi j => ht i (fun he => htag (he ▸ hi)) j
  refine ⟨?_, ?_, ?_,
    by rw [INR_compute_loss, INR_compute_loss]; ring,
    by rw [Surface_compute_loss, Surface_compute_loss]; ring,
    by rw [Simulator_compute_loss, Simulator_compute_loss]; ring⟩
  · intro h1 h2 h3
    rw [INR_compute_loss, INR_compute_loss,
      l1Term_congr wa (mk _ h1) (mkt _ h1), l1Term_congr wb (mk _ h2) (mkt _ h2),
      jawTerm_congr Uj Vj wc (mk _ h3) (mkt _ h3)]
  · intro h1 h2
    rw [Surface_compute_loss, Surface_compute_loss,
      l1Term_congr wa (mk _ h1) (mkt _ h1), l1Term_congr wb (mk _ h2) (mkt _ h2)]
  · intro h1
    rw [Simulator_compute_loss, Simulator_compute_loss,
      l1Term_congr wa (mk _ h1) (mkt _ h1)]

/-- Witness for C9 on a singleton batch whose one sample has tag 99,
matching no enumeration of any mode. -/
theorem claim_C9_witness :
    INR_compute_loss (0 : Matrix (Fin 1) (Fin 3) ℝ) 0 (fun _ => 99) zeroB oneB oneB
        1 1 2 3 5 7
      = INR_compute_loss (0 : Matrix (Fin 1) (Fin 3) ℝ) 0 (fun _ => 99) zeroB oneB
        oneB 1 1 2 3 5 7 :=
  (claim_C9_untagged_only_regularizer 0 0 0 0 (fun _ => 99) 0 zeroB zeroB oneB oneB
      oneB oneB zeroB oneB oneB oneB oneB 1 1 2 3 5 7
      (fun _ _ _ => rfl) (fun _ _ _ => rfl)).1
    (by decide) (by decide) (by decide)

/-- Sandwiching by an orthogonal matrix is invertible. -/
theorem conj_cancel {U X Y : Matrix (Fin 3) (Fin 3) ℝ} (hU : U * Uᵀ = 1)
    (h : U * X * Uᵀ = Y) : X = Uᵀ * Y * U := by
  have hU2 : Uᵀ * U = 1 := Matrix.mul_eq_one_comm.mp hU
  calc X = (Uᵀ * U) * X * (Uᵀ * U) := by rw [hU2, Matrix.one_mul, Matrix.mul_one]
    _ = Uᵀ * (U * X * Uᵀ) * U := by noncomm_ring
    _ = Uᵀ * Y * U := by rw [h]

/-- Z is the identity whenever det(U·Vᵀ) = 1. -/
theorem Zmat_of_det_one {U V : Matrix (Fin 3) (Fin 3) ℝ}
    (h : (U * Vᵀ).det = 1) : Zmat U V = 1 := by
  rw [Zmat, h, Real.sign_one]
  have h2 : (![1, 1, 1] : Fin 3 → ℝ) = fun _ => 1 := by
    funext i; fin_cases i <;> rfl
  rw [h2, Matrix.diagonal_one]

/-- Orthogonal factors and a valid SVD of M force diag(s)² = MᵀM-conjugate
relation: the squared singular values are determined. -/
theorem svd_sq {M U : Matrix (Fin 3) (Fin 3) ℝ} {s : Fin 3 → ℝ}
    {V : Matrix (Fin 3) (Fin 3) ℝ} (h : IsSVD M U s V) :
    Matrix.diagonal (fun i => s i * s i) = Uᵀ * (M * Mᵀ) * U := by
  obtain ⟨hU, hV, hK, _, _, _⟩ := h
  have hVt : Vᵀ * V = 1 := Matrix.mul_eq_one_comm.mp hV
  have hMMt : M * Mᵀ = U * Matrix.diagonal (fun i => s i * s i) * Uᵀ := by
    rw [hK]
    calc U * Matrix.diagonal s * Vᵀ * (U * Matrix.diagonal s * Vᵀ)ᵀ
        = U * Matrix.diagonal s * (Vᵀ * V) * (Matrix.diagonal s)ᵀ * Uᵀ := by
          rw [Matrix.transpose_mul, Matrix.transpose_mul, Matrix.transpose_transpose]
          noncomm_ring
      _ = U * (Matrix.diagonal s * Matrix.diagonal s) * Uᵀ := by
          rw [hVt, Matrix.mul_one, Matrix.diagonal_transpose]
          noncomm_ring
      _ = U * Matrix.diagonal (fun i => s i * s i) * Uᵀ := by
          rw [Matrix.diagonal_mul_diagonal]
  exact conj_cancel hU hMMt.symm

/-- Descending nonnegative singular values are all nonnegative. -/
theorem s_nonneg {s : Fin 3 → ℝ} (h2 : 0 ≤ s 2) (h21 : s 2 ≤ s 1) (h10 : s 1 ≤ s 0)
    (i : Fin 3) : 0 ≤ s i := by
  fin_cases i
  · exact le_trans h2 (le_trans h21 h10)
  · exact le_trans h2 h21
  · exact h2

/-- With nonnegative singular values, diag(s)² = 1 forces s = 1. -/
theorem svd_s_eq_one {M U : Matrix (Fin 3) (Fin 3) ℝ} {s : Fin 3 → ℝ}
    {V : Matrix (Fin 3) (Fin 3) ℝ} (h : IsSVD M U s V) (hM : M * Mᵀ = 1) :
    s = fun _ => 1 := by
  have hsq := svd_sq h
  obtain ⟨hU, _, _, h2, h21, h10⟩ := h
  have hU2 : Uᵀ * U = 1 := Matrix.mul_eq_one_comm.mp hU
  rw [hM, Matrix.mul_one, hU2] at hsq
  funext i
  have hi : Matrix.diagonal (fun i => s i * s i) i i = (1 : Matrix (Fin 3) (Fin 3) ℝ) i i := by
    rw [hsq]
  rw [Matrix.diagonal_apply_eq, Matrix.one_apply_eq] at hi
  have hnn : 0 ≤ s i := s_nonneg h2 h21 h10 i
  rcases mul_self_eq_one_iff.mp hi with h1 | h1
  · exact h1
  · linarith [hnn, h1.symm.le]

/-- C6 per-sample case 1: a matrix that is already a proper rotation is
its own nearest rotation. -/
theorem closestR_of_rotation {M U : Matrix (Fin 3) (Fin 3) ℝ} {s : Fin 3 → ℝ}
    {V : Matrix (Fin 3) (Fin 3) ℝ} (h : IsSVD M U s V) (hM : M * Mᵀ = 1)
    (hdet : M.det = 1) : closestR U V = M := by
  have hs := svd_s_eq_one h hM
  obtain ⟨hU, hV, hK, _, _, _⟩ := h
  have hD : Matrix.diagonal s = 1 := by rw [hs, Matrix.diagonal_one]
  have hMUV : M = U * Vᵀ := by rw [hK, hD, Matrix.mul_one]
  have hdUV : (U * Vᵀ).det = 1 := by rw [← hMUV]; exact hdet
  rw [closestR, Zmat_of_det_one hdUV, Matrix.mul_one, hMUV]

/-- C6 per-sample case 2: the nearest rotation of c·I (c > 0) is the
identity. -/
theorem closestR_of_smul_one {c : ℝ} {M U : Matrix (Fin 3) (Fin 3) ℝ} {s : Fin 3 → ℝ}
    {V : Matrix (Fin 3) (Fin 3) ℝ} (h : IsSVD M U s V) (hc : 0 < c)
    (hM : M = c • 1) : closestR U V = 1 := by
  have hsq := svd_sq h
  have hMMt : M * Mᵀ = (c * c) • (1 : Matrix (Fin 3) (Fin 3) ℝ) := by
    rw [hM, Matrix.transpose_smul, Matrix.transpose_one, Matrix.smul_mul,
      Matrix.mul_smul, Matrix.mul_one, smul_smul]
  obtain ⟨hU, hV, hK, h2, h21, h10⟩ := h
  have hUt : Uᵀ * U = 1 := Matrix.mul_eq_one_comm.mp hU
  rw [hMMt] at hsq
  have hsq2 : Matrix.diagonal (fun i => s i * s i)
      = (c * c) • (1 : Matrix (Fin 3) (Fin 3) ℝ) := by
    rw [hsq, Matrix.mul_smul, Matrix.mul_one, Matrix.smul_mul, hUt]
  have hsc : s = fun _ => c := by
    funext i
    have hi : Matrix.diagonal (fun i => s i * s i) i i
        = ((c * c) • (1 : Matrix (Fin 3) (Fin 3) ℝ)) i i := by rw [hsq2]
    rw [Matrix.diagonal_apply_eq, Matrix.smul_apply, Matrix.one_apply_eq, smul_eq_mul,
      mul_one] at hi
    have hnn : 0 ≤ s i := s_nonneg h2 h21 h10 i
    rcases mul_self_eq_mul_self_iff.mp hi with h1 | h1
    · exact h1
    · nlinarith
  have hD : Matrix.diagonal s = c • 1 := by
    rw [hsc]
    ext i j
    rw [Matrix.smul_apply, Matrix.diagonal_apply, Matrix.one_apply]
    by_cases hij : i = j
    · rw [if_pos hij, if_pos hij, smul_eq_mul, mul_one]
    · rw [if_neg hij, if_neg hij, smul_eq_mul, mul_zero]
  have hUV : U * Vᵀ = 1 := by
    have h1 : M = c • (U * Vᵀ) := by
      rw [hK, hD, Matrix.mul_smul, Matrix.smul_mul, Matrix.mul_one]
    have h2 : c • (U * Vᵀ) = c • (1 : Matrix (Fin 3) (Fin 3) ℝ) := by
      rw [← h1, hM]
    exact smul_right_injective _ (ne_of_gt hc) h2
  have hdUV : (U * Vᵀ).det = 1 := by rw [hUV, Matrix.det_one]
  rw [closestR, Zmat_of_det_one hdUV, Matrix.mul_one, hUV]

/-- Frobenius norm of the zero matrix is zero. -/
theorem frob_zero : frob (0 : Matrix (Fin 3) (Fin 3) ℝ) = 0 := by
  rw [frob]
  simp

/-- Frobenius norm of (c−1)·I is |c−1|·√3. -/
theorem frob_smul_one (c : ℝ) :
    frob (c • (1 : Matrix (Fin 3) (Fin 3) ℝ)) = |c| * Real.sqrt 3 := by
  rw [frob]
  have h : (∑ a : Fin 3, ∑ b : Fin 3, ((c • (1 : Matrix (Fin 3) (Fin 3) ℝ)) a b) ^ 2)
      = c ^ 2 * 3 := by
    norm_num [Fin.sum_univ_three, Matrix.smul_apply, Matrix.one_apply, Fin.ext_iff]
    ring
  rw [h, mul_comm (c ^ 2) 3, Real.sqrt_mul (by norm_num), Real.sqrt_sq_eq_abs,
    mul_comm]

/-- C6: for a batched SVD of the Jacobian batch, if every Jacobian is
already a proper rotation the deformation regularizer returns exactly 0,
and if every Jacobian equals c·I with c > 0 it returns |c−1|·√3, the
Frobenius distance from c·I to the identity. -/
theorem claim_C6_closest_rotation_residual {n : ℕ}
    (jac U V : Fin n → Matrix (Fin 3) (Fin 3) ℝ) (s : Fin n → Fin 3 → ℝ)
    (hn : 0 < n) (hsvd : ∀ i, IsSVD (jac i) (U i) (s i) (V i)) :
    ((∀ i, jac i * (jac i)ᵀ = 1 ∧ (jac i).det = 1) → deformation_loss jac U V = 0) ∧
    (∀ c : ℝ, 0 < c → (∀ i, jac i = c • 1) →
      deformation_loss jac U V = |c - 1| * Real.sqrt 3) := by
  constructor
  · intro hrot
    rw [deformation_loss]
    have hterm : ∀ i : Fin n, frob (jac i - closestR (U i) (V i)) = 0 := by
      intro i
      rw [closestR_of_rotation (hsvd i) (hrot i).1 (hrot i).2, sub_self, frob_zero]
    rw [Finset.sum_congr rfl fun i _ => hterm i, Finset.sum_const_zero, zero_div]
  · intro c hc hcI
    rw [deformation_loss]
    have hterm : ∀ i : Fin n, frob (jac i - closestR (U i) (V i))
        = |c - 1| * Real.sqrt 3 := by
      intro i
      rw [closestR_of_smul_one (hsvd i) hc (hcI i), hcI i]
      have h1 : c • (1 : Matrix (Fin 3) (Fin 3) ℝ) - 1 = (c - 1) • 1 := by
        rw [sub_smul, one_smul]
      rw [h1, frob_smul_one]
    have hne : (n : ℝ) ≠ 0 := Nat.cast_ne_zero.mpr (Nat.pos_iff_ne_zero.mp hn)
    rw [Finset.sum_congr rfl fun i _ => hterm i, Finset.sum_const, Finset.card_univ,
      Fintype.card_fin, nsmul_eq_mul, mul_div_cancel_left₀ _ hne]

/-- Witness for C6 at the singleton batch whose Jacobian is the identity
(a proper rotation, and also c·I with c = 1): both parts give 0. -/
theorem claim_C6_witness :
    (0 < 1 ∧ (∀ i : Fin 1, IsSVD (oneB i) (oneB i)
        ((fun _ => fun _ => (1:ℝ)) i) (oneB i))) ∧
    deformation_loss oneB oneB oneB = 0 := by
  have hsvd : ∀ i : Fin 1, IsSVD (oneB i) (oneB i)
      ((fun _ => fun _ => (1:ℝ)) i) (oneB i) := by
    intro i
    refine ⟨by simp [oneB], by simp [oneB], ?_, by norm_num, by norm_num, by norm_num⟩
    rw [show (Matrix.diagonal (fun _ => (1:ℝ)) : Matrix (Fin 3) (Fin 3) ℝ) = 1 from
      Matrix.diagonal_one]
    simp [oneB]
  exact ⟨⟨Nat.one_pos, hsvd⟩,
    (claim_C6_closest_rotation_residual oneB oneB oneB
      (fun _ => fun _ => 1) Nat.one_pos hsvd).1 (fun i => ⟨by simp [oneB], by simp [oneB]⟩)⟩

/-- Frobenius inner product as a nested sum. -/
theorem minner_nested {n : ℕ} (P Q : Matrix (Fin n) (Fin 3) ℝ) :
    minner P Q = ∑ i, ∑ j, P i j * Q i j := by
  rw [minner, Fintype.sum_prod_type]

/-- Frobenius inner product of a matrix with itself is the trace of its
Gram matrix. -/
theorem minner_self_trace {n : ℕ} (P : Matrix (Fin n) (Fin 3) ℝ) :
    minner P P = (Pᵀ * P).trace := by
  simp only [minner, Fintype.sum_prod_type, Matrix.trace, Matrix.diag, Matrix.mul_apply,
    Matrix.transpose_apply]
  exact Finset.sum_comm

/-- var1 is the Frobenius inner product of the centered set with itself. -/
theorem sqVar_eq_minner {n : ℕ} (S : Matrix (Fin n) (Fin 3) ℝ) :
    sqVar S = minner (centered S) (centered S) := by
  simp only [sqVar, minner, Fintype.sum_prod_type, pow_two]

/-- Trace of R·(Pᵀ·Q) is the Frobenius inner product of P·Rᵀ with Q. -/
theorem trace_mul_cross {n : ℕ} (R0 : Matrix (Fin 3) (Fin 3) ℝ)
    (P Q : Matrix (Fin n) (Fin 3) ℝ) :
    (R0 * (Pᵀ * Q)).trace = minner (P * R0ᵀ) Q := by
  simp only [minner, Fintype.sum_prod_type, Matrix.trace, Matrix.diag, Matrix.mul_apply,
    Matrix.transpose_apply, Finset.mul_sum, Finset.sum_mul]
  have h1 : ∀ a : Fin 3, (∑ b : Fin 3, ∑ i : Fin n, R0 a b * (P i b * Q i a))
      = ∑ i : Fin n, ∑ b : Fin 3, R0 a b * (P i b * Q i a) := fun a => Finset.sum_comm
  rw [Finset.sum_congr rfl fun a _ => h1 a, Finset.sum_comm]
  apply Finset.sum_congr rfl
  intro i _
  apply Finset.sum_congr rfl
  intro a _
  apply Finset.sum_congr rfl
  intro b _
  ring

/-- Multiplying on the right by the transpose of an orthogonal matrix
preserves the Frobenius inner product with itself. -/
theorem minner_mul_orth {n : ℕ} (P : Matrix (Fin n) (Fin 3) ℝ)
    {R0 : Matrix (Fin 3) (Fin 3) ℝ} (hR0 : R0 * R0ᵀ = 1) :
    minner (P * R0ᵀ) (P * R0ᵀ) = minner P P := by
  have hR2 : R0ᵀ * R0 = 1 := Matrix.mul_eq_one_comm.mp hR0
  rw [minner_self_trace, minner_self_trace, Matrix.transpose_mul,
    Matrix.transpose_transpose]
  calc (R0 * Pᵀ * (P * R0ᵀ)).trace
      = (R0 * (Pᵀ * P) * R0ᵀ).trace := by
        rw [← Matrix.mul_assoc (R0 * Pᵀ) P R0ᵀ, Matrix.mul_assoc R0 Pᵀ P]
    _ = (R0ᵀ * R0 * (Pᵀ * P)).trace := Matrix.trace_mul_cycle R0 (Pᵀ * P) R0ᵀ
    _ = (Pᵀ * P).trace := by rw [hR2, Matrix.one_mul]

/-- Scaling both arguments scales the Frobenius inner product by c². -/
theorem minner_smul_smul {n : ℕ} (c : ℝ) (P Q : Matrix (Fin n) (Fin 3) ℝ) :
    minner (c • P) (c • Q) = c ^ 2 * minner P Q := by
  simp only [minner, Matrix.smul_apply, smul_eq_mul, Finset.mul_sum]
  apply Finset.sum_congr rfl
  intro p _
  ring

/-- Cauchy–Schwarz for the Frobenius inner product. -/
theorem minner_cauchy {n : ℕ} (P Q : Matrix (Fin n) (Fin 3) ℝ) :
    (minner P Q) ^ 2 ≤ minner P P * minner Q Q := by
  have h := Finset.sum_mul_sq_le_sq_mul_sq Finset.univ
    (fun p : Fin n × Fin 3 => P p.1 p.2) (fun p : Fin n × Fin 3 => Q p.1 p.2)
  simpa [minner, pow_two] using h

/-- A matrix with vanishing Frobenius norm is zero. -/
theorem minner_self_eq_zero {n : ℕ} {P : Matrix (Fin n) (Fin 3) ℝ}
    (h : minner P P = 0) : P = 0 := by
  ext i j
  have h2 := (Finset.sum_eq_zero_iff_of_nonneg
    (fun p _ => mul_self_nonneg (P p.1 p.2))).mp h (i, j) (Finset.mem_univ _)
  rw [Matrix.zero_apply]
  exact mul_self_eq_zero.mp h2

/-- Quadratic expansion of the aligned-residual Frobenius norm. -/
theorem minner_expand {n : ℕ} (a : ℝ) (P Q : Matrix (Fin n) (Fin 3) ℝ) :
    minner (a • P - Q) (a • P - Q)
      = a ^ 2 * minner P P - 2 * a * minner P Q + minner Q Q := by
  simp only [minner, Matrix.sub_apply, Matrix.smul_apply, smul_eq_mul, Finset.mul_sum]
  rw [← Finset.sum_sub_distrib, ← Finset.sum_add_distrib]
  apply Finset.sum_congr rfl
  intro p _
  ring

/-- det(U·Vᵀ) of orthogonal factors is ±1. -/
theorem detUV_pm {U V : Matrix (Fin 3) (Fin 3) ℝ} (hU : U * Uᵀ = 1)
    (hV : V * Vᵀ = 1) : (U * Vᵀ).det = 1 ∨ (U * Vᵀ).det = -1 := by
  rw [Matrix.det_mul, Matrix.det_transpose]
  rcases det_orth_pm_one hU with h | h <;> rcases det_orth_pm_one hV with g | g <;>
    rw [h, g] <;> norm_num

/-- Z is orthogonal when U and V are. -/
theorem Zmat_orth {U V : Matrix (Fin 3) (Fin 3) ℝ} (hU : U * Uᵀ = 1)
    (hV : V * Vᵀ = 1) : Zmat U V * (Zmat U V)ᵀ = 1 := by
  rw [Zmat, Matrix.diagonal_transpose, Matrix.diagonal_mul_diagonal]
  have hσ : Real.sign (U * Vᵀ).det * Real.sign (U * Vᵀ).det = 1 := by
    rcases detUV_pm hU hV with h | h <;>
      rw [h] <;> norm_num [Real.sign_one, Real.sign_of_neg]
  have hv : (fun i => (![1, 1, Real.sign (U * Vᵀ).det] : Fin 3 → ℝ) i
      * (![1, 1, Real.sign (U * Vᵀ).det] : Fin 3 → ℝ) i) = fun _ => (1:ℝ) := by
    funext i
    fin_cases i
    · show (1 : ℝ) * 1 = 1; norm_num
    · show (1 : ℝ) * 1 = 1; norm_num
    · exact hσ
  rw [hv, Matrix.diagonal_one]

/-- The rotation R = V·Z·Uᵀ built by procrustes_loss is orthogonal. -/
theorem procR_orth {U V : Matrix (Fin 3) (Fin 3) ℝ} (hU : U * Uᵀ = 1)
    (hV : V * Vᵀ = 1) : procR U V * (procR U V)ᵀ = 1 := by
  have hU2 : Uᵀ * U = 1 := Matrix.mul_eq_one_comm.mp hU
  rw [procR, Matrix.transpose_mul, Matrix.transpose_mul, Matrix.transpose_transpose]
  calc V * Zmat U V * Uᵀ * (Uᵀᵀ * ((Zmat U V)ᵀ * Vᵀ))
      = V * Zmat U V * (Uᵀ * U) * ((Zmat U V)ᵀ * Vᵀ) := by
        rw [Matrix.transpose_transpose]; noncomm_ring
    _ = V * (Zmat U V * (Zmat U V)ᵀ) * Vᵀ := by rw [hU2]; noncomm_ring
    _ = V * Vᵀ := by rw [Zmat_orth hU hV, Matrix.mul_one]
    _ = 1 := hV

/-- Trace of the algorithm's R against K, in terms of the singular values:
s0 + s1 + sign(det UVᵀ)·s2. -/
theorem trace_procR_svd {K U : Matrix (Fin 3) (Fin 3) ℝ} {s : Fin 3 → ℝ}
    {V : Matrix (Fin 3) (Fin 3) ℝ} (h : IsSVD K U s V) :
    (procR U V * K).trace = s 0 + s 1 + Real.sign (U * Vᵀ).det * s 2 := by
  obtain ⟨hU, hV, hK, _, _, _⟩ := h
  have hU2 : Uᵀ * U = 1 := Matrix.mul_eq_one_comm.mp hU
  have hV2 : Vᵀ * V = 1 := Matrix.mul_eq_one_comm.mp hV
  have h1 : procR U V * K = V * (Zmat U V * Matrix.diagonal s) * Vᵀ := by
    rw [hK, procR]
    calc V * Zmat U V * Uᵀ * (U * Matrix.diagonal s * Vᵀ)
        = V * Zmat U V * (Uᵀ * U) * (Matrix.diagonal s * Vᵀ) := by noncomm_ring
      _ = V * (Zmat U V * Matrix.diagonal s) * Vᵀ := by rw [hU2]; noncomm_ring
  rw [h1, Matrix.trace_mul_cycle, hV2, Matrix.one_mul, Zmat,
    Matrix.diagonal_mul_diagonal, Matrix.trace_diagonal, Fin.sum_univ_three]
  show (1 : ℝ) * s 0 + 1 * s 1 + Real.sign (U * Vᵀ).det * s 2 = _
  ring

/-- Trace against a diagonal matrix picks the diagonal entries. -/
theorem trace_mul_diag (W : Matrix (Fin 3) (Fin 3) ℝ) (s : Fin 3 → ℝ) :
    (W * Matrix.diagonal s).trace = ∑ j, W j j * s j := by
  simp [Matrix.trace, Matrix.diag, Matrix.mul_diagonal]

/-- Diagonal entries of an orthogonal matrix are at most 1. -/
theorem orth_diag_le_one {W : Matrix (Fin 3) (Fin 3) ℝ} (hW : W * Wᵀ = 1)
    (j : Fin 3) : W j j ≤ 1 := by
  have h : (W * Wᵀ) j j = 1 := by rw [hW, Matrix.one_apply_eq]
  rw [Matrix.mul_apply] at h
  simp only [Matrix.transpose_apply] at h
  have hle : W j j * W j j ≤ ∑ b, W j b * W j b :=
    Finset.single_le_sum (fun b _ => mul_self_nonneg (W j b)) (Finset.mem_univ j)
  rw [h] at hle
  nlinarith [hle]

/-- Gram matrices have nonnegative determinant. -/
theorem gram_det_nonneg {n : ℕ} (P : Matrix (Fin n) (Fin 3) ℝ) :
    0 ≤ (Pᵀ * P).det := by
  have hps : Matrix.PosSemidef (Pᵀ * P) := by
    have h := Matrix.posSemidef_conjTranspose_mul_self P
    rwa [Matrix.conjTranspose_eq_transpose_of_trivial] at h
  rw [← hps.sqrt_mul_self, Matrix.det_mul]
  exact mul_self_nonneg _

/-- Maximality of the sign-corrected rotation: any orthogonal Rs' has
trace(Rs'·K) at most trace(R_alg·K), provided either det(U·Vᵀ) is positive
or the smallest singular value vanishes. -/
theorem trace_rot_le {K U : Matrix (Fin 3) (Fin 3) ℝ} {s : Fin 3 → ℝ}
    {V Rp : Matrix (Fin 3) (Fin 3) ℝ} (h : IsSVD K U s V) (hRp : Rp * Rpᵀ = 1)
    (hcase : Real.sign (U * Vᵀ).det = 1 ∨ s 2 = 0) :
    (Rp * K).trace ≤ (procR U V * K).trace := by
  rw [trace_procR_svd h]
  obtain ⟨hU, hV, hK, h2, h21, h10⟩ := h
  have hV2 : Vᵀ * V = 1 := Matrix.mul_eq_one_comm.mp hV
  have hW : (Vᵀ * Rp * U) * (Vᵀ * Rp * U)ᵀ = 1 := by
    rw [Matrix.transpose_mul, Matrix.transpose_mul, Matrix.transpose_transpose]
    calc Vᵀ * Rp * U * (Uᵀ * (Rpᵀ * Vᵀᵀ))
        = Vᵀ * Rp * (U * Uᵀ) * Rpᵀ * V := by
          rw [Matrix.transpose_transpose]; noncomm_ring
      _ = Vᵀ * (Rp * Rpᵀ) * V := by rw [hU]; noncomm_ring
      _ = Vᵀ * V := by rw [hRp, Matrix.mul_one]
      _ = 1 := hV2
  have htr : (Rp * K).trace = ∑ j, (Vᵀ * Rp * U) j j * s j := by
    rw [hK]
    have hassoc : Rp * (U * Matrix.diagonal s * Vᵀ)
        = (Rp * U) * Matrix.diagonal s * Vᵀ := by noncomm_ring
    rw [hassoc, Matrix.trace_mul_comm ((Rp * U) * Matrix.diagonal s) Vᵀ]
    have hassoc2 : Vᵀ * (Rp * U * Matrix.diagonal s)
        = (Vᵀ * Rp * U) * Matrix.diagonal s := by noncomm_ring
    rw [hassoc2, trace_mul_diag]
  have hd : ∀ j, (Vᵀ * Rp * U) j j * s j ≤ s j := fun j =>
    mul_le_of_le_one_left (s_nonneg h2 h21 h10 j) (orth_diag_le_one hW j)
  rw [htr, Fin.sum_univ_three]
  rcases hcase with hσ | hs2
  · rw [hσ, one_mul]
    linarith [hd 0, hd 1, hd 2]
  · rw [hs2, mul_zero]
    have h3 : (Vᵀ * Rp * U) 2 2 * s 2 = 0 := by rw [hs2, mul_zero]
    linarith [hd 0, hd 1, h3.le]

/-- Frobenius inner product of a matrix with itself is nonnegative. -/
theorem minner_self_nonneg {n : ℕ} (P : Matrix (Fin n) (Fin 3) ℝ) :
    0 ≤ minner P P :=
  Finset.sum_nonneg fun p _ => mul_self_nonneg (P p.1 p.2)

/-- Centered rows of a similarity-transformed set are the rotated, scaled
centered rows of the original set. -/
theorem centered_applySim {n : ℕ} (hn : 0 < n) (c : ℝ)
    (Rs : Matrix (Fin 3) (Fin 3) ℝ) (ts : Fin 3 → ℝ) (S1 : Matrix (Fin n) (Fin 3) ℝ) :
    centered (applySim c Rs ts S1) = c • (centered S1 * Rsᵀ) := by
  have hn0 : (n : ℝ) ≠ 0 := Nat.cast_ne_zero.mpr (Nat.pos_iff_ne_zero.mp hn)
  ext i j
  simp only [centered, centroid, applySim, Matrix.smul_apply, Matrix.mul_apply,
    Matrix.transpose_apply, Matrix.mulVec, dotProduct, smul_eq_mul]
  rw [Finset.sum_add_distrib, Finset.sum_const, Finset.card_univ, Fintype.card_fin,
    nsmul_eq_mul, ← Finset.mul_sum, Finset.sum_comm]
  have hb : ∀ b, (∑ k, S1 k b) / (n : ℝ) * Rs j b = (∑ k, S1 k b * Rs j b) / n := by
    intro b
    rw [div_mul_eq_mul_div, Finset.sum_mul]
  have hsub : (∑ b, (S1 i b - (∑ k, S1 k b) / (n : ℝ)) * Rs j b)
      = ∑ b, S1 i b * Rs j b - ∑ b, ((∑ k, S1 k b) / (n : ℝ)) * Rs j b := by
    rw [← Finset.sum_sub_distrib]
    exact Finset.sum_congr rfl fun b _ => by ring
  have hL : (c * (∑ b : Fin 3, ∑ k : Fin n, Rs j b * S1 k b) + (n : ℝ) * ts j) / (n : ℝ)
      = c * (∑ b : Fin 3, ∑ k : Fin n, Rs j b * S1 k b) / n + ts j := by
    rw [add_div, mul_div_cancel_left₀ _ hn0]
  have hR2 : (∑ b : Fin 3, (S1 i b - (∑ k, S1 k b) / (n : ℝ)) * Rs j b)
      = (∑ b : Fin 3, S1 i b * Rs j b)
        - (∑ b : Fin 3, ∑ k : Fin n, S1 k b * Rs j b) / n := by
    rw [hsub, Finset.sum_congr rfl fun b _ => hb b, ← Finset.sum_div]
  rw [hL, hR2]
  have hc1 : (∑ b : Fin 3, Rs j b * S1 i b) = ∑ b : Fin 3, S1 i b * Rs j b :=
    Finset.sum_congr rfl fun b _ => mul_comm _ _
  have hc2 : (∑ b : Fin 3, ∑ k : Fin n, Rs j b * S1 k b)
      = ∑ b : Fin 3, ∑ k : Fin n, S1 k b * Rs j b :=
    Finset.sum_congr rfl fun b _ => Finset.sum_congr rfl fun k _ => mul_comm _ _
  rw [hc1, hc2]
  ring

/-- Core residual computation: when the algorithm's rotation attains
trace(R·K) = c·var1 and the second set carries Frobenius mass c²·var1, the
procrustes residual vanishes identically. -/
theorem spec_residual_zero {n : ℕ} (S1 S2 : Matrix (Fin n) (Fin 3) ℝ)
    (U V : Matrix (Fin 3) (Fin 3) ℝ) (c : ℝ)
    (hU : U * Uᵀ = 1) (hV : V * Vᵀ = 1)
    (hT : (procR U V * crossCov S1 S2).trace = c * sqVar S1)
    (hvar2 : minner (centered S2) (centered S2) = c ^ 2 * sqVar S1) :
    procrustes_spec S1 S2 U V = 0 := by
  simp only [procrustes_spec]
  set scl := (procR U V * crossCov S1 S2).trace / sqVar S1 with hscl
  have hE : ∀ (i : Fin n) (j : Fin 3),
      scl * (procR U V).mulVec (S1 i) j
        + (centroid S2 j - scl * (procR U V).mulVec (centroid S1) j) - S2 i j
      = (scl • (centered S1 * (procR U V)ᵀ) - centered S2) i j := by
    intro i j
    simp only [Matrix.sub_apply, Matrix.smul_apply, Matrix.mul_apply,
      Matrix.transpose_apply, smul_eq_mul, centered, Matrix.mulVec, dotProduct]
    have hs : (∑ b, (S1 i b - centroid S1 b) * procR U V j b)
        = (∑ b, procR U V j b * S1 i b) - ∑ b, procR U V j b * centroid S1 b := by
      rw [← Finset.sum_sub_distrib]
      exact Finset.sum_congr rfl fun b _ => by ring
    rw [hs]
    ring
  have hcc : ((centered S1)ᵀ * centered S2) = crossCov S1 S2 := rfl
  have hEE : minner (scl • (centered S1 * (procR U V)ᵀ) - centered S2)
      (scl • (centered S1 * (procR U V)ᵀ) - centered S2) = 0 := by
    rw [minner_expand, minner_mul_orth (centered S1) (procR_orth hU hV),
      ← trace_mul_cross, hcc, hT, hvar2, ← sqVar_eq_minner]
    rcases eq_or_ne (sqVar S1) 0 with h0 | hne
    · rw [h0]; ring
    · have hscl2 : scl = c := by
        rw [hscl, hT, mul_div_cancel_right₀ _ hne]
      rw [hscl2]; ring
  have hrow : ∀ i : Fin n,
      (∑ j, ((scl • (centered S1 * (procR U V)ᵀ) - centered S2) i j) ^ 2) = 0 := by
    have hnest := hEE
    rw [minner_nested] at hnest
    intro i
    have h0 := (Finset.sum_eq_zero_iff_of_nonneg (fun i _ =>
      Finset.sum_nonneg fun j _ => mul_self_nonneg
        ((scl • (centered S1 * (procR U V)ᵀ) - centered S2) i j))).mp hnest i
      (Finset.mem_univ i)
    rw [Finset.sum_congr rfl fun j _ =>
      pow_two ((scl • (centered S1 * (procR U V)ᵀ) - centered S2) i j)]
    exact h0
  have hterm : ∀ i : Fin n, vnorm (fun j =>
      scl * (procR U V).mulVec (S1 i) j
        + (centroid S2 j - scl * (procR U V).mulVec (centroid S1) j) - S2 i j) = 0 := by
    intro i
    rw [vnorm]
    rw [Finset.sum_congr rfl fun j _ => by rw [hE i j]]
    rw [hrow i, Real.sqrt_zero]
  rw [Finset.sum_congr rfl fun i _ => hterm i, Finset.sum_const_zero, zero_div]

/-- C7: the recovered similarity transform aligns a point set exactly onto
its transformed copy: for every point set S1 of at least three points,
proper rotation Rs (orthogonal, det = 1), translation ts and positive
scale c, procrustes_loss(S1, c·Rs·S1 + ts) is exactly zero, for any valid
SVD of the cross covariance. -/
theorem claim_C7_exact_alignment {n : ℕ} (S1 : Matrix (Fin n) (Fin 3) ℝ)
    (Rs U V : Matrix (Fin 3) (Fin 3) ℝ) (ts : Fin 3 → ℝ) (c : ℝ) (s : Fin 3 → ℝ)
    (hn : 3 ≤ n) (hR : Rs * Rsᵀ = 1) (hdR : Rs.det = 1) (hc : 0 < c)
    (hsvd : IsSVD (crossCov S1 (applySim c Rs ts S1)) U s V) :
    procrustes_loss S1 (applySim c Rs ts S1) U V = 0 := by
  have hU : U * Uᵀ = 1 := hsvd.1
  have hV : V * Vᵀ = 1 := hsvd.2.1
  have hn0 : 0 < n := by omega
  have hX2 : centered (applySim c Rs ts S1) = c • (centered S1 * Rsᵀ) :=
    centered_applySim hn0 c Rs ts S1
  have hsq : 0 ≤ sqVar S1 := by
    rw [sqVar_eq_minner]; exact minner_self_nonneg _
  have hKc : crossCov S1 (applySim c Rs ts S1) = c • (crossCov S1 S1 * Rsᵀ) := by
    rw [crossCov, crossCov, hX2, Matrix.mul_smul, Matrix.mul_assoc]
  have hv1tr : (crossCov S1 S1).trace = sqVar S1 := by
    rw [sqVar_eq_minner, minner_self_trace, crossCov]
  have htrRs : (Rs * crossCov S1 (applySim c Rs ts S1)).trace = c * sqVar S1 := by
    rw [hKc, Matrix.mul_smul, Matrix.trace_smul, smul_eq_mul, ← Matrix.mul_assoc,
      Matrix.trace_mul_cycle, Matrix.mul_eq_one_comm.mp hR, Matrix.one_mul, hv1tr]
  have hcase : Real.sign (U * Vᵀ).det = 1 ∨ s 2 = 0 := by
    rcases detUV_pm hU hV with hp | hm
    · left; rw [hp]; exact Real.sign_one
    · right
      obtain ⟨_, _, hKsvd, h2, h21, h10⟩ := hsvd
      have hdK : (crossCov S1 (applySim c Rs ts S1)).det
          = (U * Vᵀ).det * (s 0 * s 1 * s 2) := by
        rw [hKsvd, Matrix.det_mul, Matrix.det_mul, Matrix.det_diagonal,
          Fin.prod_univ_three, Matrix.det_mul, Matrix.det_transpose]
        ring
      have hdKn : 0 ≤ (crossCov S1 (applySim c Rs ts S1)).det := by
        rw [hKc, Matrix.det_smul, Matrix.det_mul, Matrix.det_transpose, hdR, mul_one]
        have hgram : 0 ≤ (crossCov S1 S1).det := by
          rw [crossCov]; exact gram_det_nonneg (centered S1)
        have hcpow : (0:ℝ) ≤ c ^ Fintype.card (Fin 3) := by positivity
        exact mul_nonneg hcpow hgram
      rw [hdK, hm] at hdKn
      have h0 := s_nonneg h2 h21 h10 0
      have h1 := s_nonneg h2 h21 h10 1
      have hpn : 0 ≤ s 0 * s 1 * s 2 := mul_nonneg (mul_nonneg h0 h1) h2
      have hprod0 : s 0 * s 1 * s 2 = 0 := le_antisymm (by linarith) hpn
      rcases mul_eq_zero.mp hprod0 with h01 | h20
      · rcases mul_eq_zero.mp h01 with hz0 | hz1
        · linarith
        · linarith
      · exact h20
  have hlow : c * sqVar S1 ≤ (procR U V * crossCov S1 (applySim c Rs ts S1)).trace := by
    rw [← htrRs]
    exact trace_rot_le hsvd hR hcase
  have hvar2 : minner (centered (applySim c Rs ts S1)) (centered (applySim c Rs ts S1))
      = c ^ 2 * sqVar S1 := by
    rw [hX2, minner_smul_smul, minner_mul_orth (centered S1) hR, ← sqVar_eq_minner]
  have hupp : (procR U V * crossCov S1 (applySim c Rs ts S1)).trace ≤ c * sqVar S1 := by
    have hTm : (procR U V * crossCov S1 (applySim c Rs ts S1)).trace
        = minner (centered S1 * (procR U V)ᵀ) (centered (applySim c Rs ts S1)) := by
      rw [crossCov, trace_mul_cross]
    have hcs := minner_cauchy (centered S1 * (procR U V)ᵀ)
      (centered (applySim c Rs ts S1))
    rw [minner_mul_orth (centered S1) (procR_orth hU hV), ← sqVar_eq_minner, hvar2]
      at hcs
    rw [hTm]
    have h1 : (minner (centered S1 * (procR U V)ᵀ) (centered (applySim c Rs ts S1))) ^ 2
        ≤ (c * sqVar S1) ^ 2 := by
      calc (minner (centered S1 * (procR U V)ᵀ) (centered (applySim c Rs ts S1))) ^ 2
          ≤ sqVar S1 * (c ^ 2 * sqVar S1) := hcs
        _ = (c * sqVar S1) ^ 2 := by ring
    have h2 : 0 ≤ c * sqVar S1 := mul_nonneg hc.le hsq
    nlinarith [h1, h2]
  have hT : (procR U V * crossCov S1 (applySim c Rs ts S1)).trace = c * sqVar S1 :=
    le_antisymm hupp hlow
  rw [procrustes_loss_eq_spec]
  exact spec_residual_zero S1 (applySim c Rs ts S1) U V c hU hV hT hvar2

/-- Witness for C7: three coincident points at the origin, identity
rotation, zero translation, unit scale, with the zero SVD of the zero
cross covariance. -/
theorem claim_C7_witness :
    IsSVD (crossCov (0 : Matrix (Fin 3) (Fin 3) ℝ)
        (applySim 1 1 0 (0 : Matrix (Fin 3) (Fin 3) ℝ))) 1 (fun _ => 0) 1 ∧
    procrustes_loss (0 : Matrix (Fin 3) (Fin 3) ℝ)
      (applySim 1 1 0 (0 : Matrix (Fin 3) (Fin 3) ℝ)) 1 1 = 0 := by
  have hz : crossCov (0 : Matrix (Fin 3) (Fin 3) ℝ)
      (applySim 1 1 0 (0 : Matrix (Fin 3) (Fin 3) ℝ)) = 0 := by
    rw [crossCov]
    have hc1 : centered (0 : Matrix (Fin 3) (Fin 3) ℝ) = 0 := by
      ext i j; simp [centered, centroid]
    rw [hc1]
    simp
  have hsvd : IsSVD (crossCov (0 : Matrix (Fin 3) (Fin 3) ℝ)
      (applySim 1 1 0 (0 : Matrix (Fin 3) (Fin 3) ℝ))) 1 (fun _ => 0) 1 := by
    refine ⟨by simp, by simp, ?_, by norm_num, by norm_num, by norm_num⟩
    rw [hz]
    have hd : Matrix.diagonal (fun _ => (0:ℝ)) = (0 : Matrix (Fin 3) (Fin 3) ℝ) :=
      Matrix.diagonal_zero
    rw [hd]
    simp
  exact ⟨hsvd, claim_C7_exact_alignment 0 1 1 1 0 1 (fun _ => 0) (le_refl 3)
    (by simp) (by simp) one_pos hsvd⟩

end Theorems

end SSRF
